import Mathlib

/-!
Verification of the Embeditor text editor core (src/Embeditor/Editor.cc,
src/Embeditor/Editor.h) against its natural-language specification.

The C++ code is shallowly embedded: rows are Lean structures, strings are
`List Char`, the highlight array is a Lean `Array`, and every editor
operation is a pure function on an explicit `EditorState`.  C++ `int`
fields that can go negative in reachable states (`Row::idx`) are `Int`;
cursor and offset fields, which stay non-negative under every operation,
are `Nat`.  `std::vector`/`std::string` indexing that the source keeps in
bounds is modelled with total `getD`/`get?` access.
-/

set_option autoImplicit false

namespace Embeditor

/-- Highlight classification codes (enum Highlight in Editor.h). -/
inductive Hl where
  | HL_NORMAL
  | HL_COMMENT
  | HL_MLCOMMENT
  | HL_KEYWORD1
  | HL_KEYWORD2
  | HL_STRING
  | HL_NUMBER
  | HL_MATCH
deriving DecidableEq, Repr, Inhabited

open Hl

/-- Syntax-rule record (struct Editor::Syntax in Editor.h).  Named
`SynRule` because `Syntax` clashes with a prelude name. -/
structure SynRule where
  filetype : List Char
  filematch : List (List Char)
  keywords : List (List Char)
  singleLineCommentStart : List Char
  multiLineCommentStart : List Char
  multilineCommentEnd : List Char
  flags : Nat
deriving DecidableEq, Repr, Inhabited

def HIGHLIGHT_NUMBERS : Nat := 1

def HIGHLIGHT_STRINGS : Nat := 2

def C_HL_extensions : List (List Char) :=
  [".c".toList, ".h".toList, ".cpp".toList, ".cc".toList]

def C_HL_keywords : List (List Char) :=
  ["switch".toList, "if".toList, "while".toList, "for".toList,
   "break".toList, "continue".toList, "return".toList, "else".toList,
   "struct".toList, "union".toList, "typedef".toList, "static".toList,
   "enum".toList, "class".toList, "case".toList,
   "int|".toList, "long|".toList, "double|".toList, "float|".toList,
   "char|".toList, "unsigned|".toList, "signed|".toList, "void|".toList]

/-- The single entry of HLDB. -/
def cRule : SynRule :=
  { filetype := "c".toList
    filematch := C_HL_extensions
    keywords := C_HL_keywords
    singleLineCommentStart := "//".toList
    multiLineCommentStart := "/*".toList
    multilineCommentEnd := "*/".toList
    flags := HIGHLIGHT_NUMBERS ||| HIGHLIGHT_STRINGS }

def HLDB : List SynRule := [cRule]

/-- C `isspace` over the ASCII range (space, \t, \n, \v, \f, \r). -/
def isSpace (c : Char) : Bool :=
  c = ' ' || c = '\t' || c = '\n' || c = '\x0b' || c = '\x0c' || c = '\r'

/-- `isSeparator` from Editor.cc: whitespace, NUL, or one of the fixed
punctuation set (`strchr` on NUL also succeeds, which the explicit NUL
test already covers). -/
def isSeparator (c : Char) : Bool :=
  isSpace c || c = '\x00' ||
    [',', '.', '(', ')', '+', '-', '/', '*', '=', '~', '%',
     '<', '>', '[', ']', ';'].contains c

/-- `memset` over a span of the highlight array: positions
`start, start+1, ..., start+n-1` are set to `v` (out-of-range positions
are dropped; the source always stays within the allocation). -/
def memsetA : Array Hl → Hl → Nat → Nat → Array Hl
  | a, _, _, 0 => a
  | a, v, start, n + 1 =>
      memsetA (if h : start < a.size then a.set ⟨start, h⟩ v else a) v (start + 1) n

@[simp] theorem memsetA_size (v : Hl) :
    ∀ (n : Nat) (a : Array Hl) (start : Nat), (memsetA a v start n).size = a.size := by
  intro n
  induction n with
  | zero => intro a start; rfl
  | succ m ih =>
      intro a start
      rw [memsetA, ih]
      split
      · simp
      · rfl

/-- Mutable state threaded through the `while (i < row.rsize)` scan loop
of `Editor::_updateSyntax`.  `oob` and `steps` are ghost instrumentation:
`oob` records that the post-keyword-loop test `keywords[j] != ""` was
reached with `j` equal to the keyword count (an out-of-bounds vector read
in the source), and `steps` counts executed loop iterations. -/
structure ScanState where
  hl : Array Hl
  i : Nat
  prevSep : Bool
  inString : Option Char
  inComment : Bool
  oob : Bool
  steps : Nat
deriving DecidableEq, Repr

/-- Result of one loop iteration: `done` for `break` (and for loop exit),
`next` for `continue`/fall-through to the next iteration. -/
inductive StepRes where
  | done (s : ScanState)
  | next (s : ScanState)
deriving DecidableEq, Repr

/-- The keyword `for` loop body: try each keyword in order at position
`i`; on success return the keyword together with its effective length
(marker `|` stripped) and its secondary-class flag.  `keywords[j][klen-1]`
is modelled with `getLast?` (the source table has no empty keyword). -/
def kwTry (render : List Char) (i : Nat) : List (List Char) → Option (List Char × Nat × Bool)
  | [] => none
  | kw :: rest =>
      let kw2 := kw.getLast?.getD '\x00' = '|'
      let klen := if kw2 then kw.length - 1 else kw.length
      let candidate := (render.drop i).take klen
      let m := kw.take klen
      if candidate = m ∧ isSeparator (render.getD (i + klen) '\x00') then
        some (kw, klen, kw2)
      else
        kwTry render i rest

/-- One iteration of the `_updateSyntax` scan loop, at position `s.i`,
over `render` with loop bound `n` (the row's `rsize`).  Transcribed
branch-for-branch from Editor.cc lines 550-671. -/
def scanStep (syn : SynRule) (render : List Char) (n : Nat) (s : ScanState) : StepRes :=
  let c := render.getD s.i '\x00'
  let prev_hl := if s.i > 0 then s.hl.getD (s.i - 1) HL_NORMAL else HL_NORMAL
  let scs := syn.singleLineCommentStart
  let mcs := syn.multiLineCommentStart
  let mce := syn.multilineCommentEnd
  if scs.length ≠ 0 ∧ s.inString = none ∧ s.inComment = false ∧
      (render.drop s.i).take scs.length = scs then
    .done { s with hl := memsetA s.hl HL_COMMENT s.i (n - s.i), steps := s.steps + 1 }
  else if mcs.length ≠ 0 ∧ mce.length ≠ 0 ∧ s.inString = none ∧ s.inComment = true then
    let hl1 := if h : s.i < s.hl.size then s.hl.set ⟨s.i, h⟩ HL_MLCOMMENT else s.hl
    if (render.drop s.i).take mce.length = mce then
      .next { s with hl := memsetA hl1 HL_MLCOMMENT s.i mce.length, i := s.i + mce.length,
                     inComment := false, prevSep := true, steps := s.steps + 1 }
    else
      .next { s with hl := hl1, i := s.i + 1, steps := s.steps + 1 }
  else if mcs.length ≠ 0 ∧ mce.length ≠ 0 ∧ s.inString = none ∧ s.inComment = false ∧
      (render.drop s.i).take mcs.length = mcs then
    .next { s with hl := memsetA s.hl HL_MLCOMMENT s.i mcs.length, i := s.i + mcs.length,
                   inComment := true, steps := s.steps + 1 }
  else if (syn.flags &&& HIGHLIGHT_STRINGS) ≠ 0 ∧ s.inString ≠ none then
    let hl1 := if h : s.i < s.hl.size then s.hl.set ⟨s.i, h⟩ HL_STRING else s.hl
    if c = '\\' ∧ s.i + 1 < n then
      let hl2 := if h : s.i + 1 < hl1.size then hl1.set ⟨s.i + 1, h⟩ HL_STRING else hl1
      .next { s with hl := hl2, i := s.i + 2, steps := s.steps + 1 }
    else
      .next { s with hl := hl1,
                     inString := if some c = s.inString then none else s.inString,
                     i := s.i + 1, prevSep := true, steps := s.steps + 1 }
  else if (syn.flags &&& HIGHLIGHT_STRINGS) ≠ 0 ∧ s.inString = none ∧
      (c = '"' ∨ c = '\'') then
    let hl1 := if h : s.i < s.hl.size then s.hl.set ⟨s.i, h⟩ HL_STRING else s.hl
    .next { s with hl := hl1, inString := some c, i := s.i + 1, steps := s.steps + 1 }
  else if (syn.flags &&& HIGHLIGHT_NUMBERS) ≠ 0 ∧
      ((c.isDigit ∧ (s.prevSep = true ∨ prev_hl = HL_NUMBER)) ∨
       (c = '.' ∧ prev_hl = HL_NUMBER)) then
    let hl1 := if h : s.i < s.hl.size then s.hl.set ⟨s.i, h⟩ HL_NUMBER else s.hl
    .next { s with hl := hl1, i := s.i + 1, prevSep := false, steps := s.steps + 1 }
  else if s.prevSep = true then
    match kwTry render s.i syn.keywords with
    | some (kw, klen, kw2) =>
        let hl1 := memsetA s.hl (if kw2 then HL_KEYWORD2 else HL_KEYWORD1) s.i klen
        if kw ≠ [] then
          .next { s with hl := hl1, i := s.i + klen, prevSep := false, steps := s.steps + 1 }
        else
          .next { s with hl := hl1, i := s.i + klen + 1, prevSep := isSeparator c,
                         steps := s.steps + 1 }
    | none =>
        .next { s with i := s.i + 1, prevSep := isSeparator c, oob := true,
                       steps := s.steps + 1 }
  else
    .next { s with i := s.i + 1, prevSep := isSeparator c, steps := s.steps + 1 }

set_option maxHeartbeats 1600000 in
/-- Each `continue` path of the scan loop either advances `i`, or (for a
matched keyword whose marker-stripped length is zero) leaves `i` fixed
while clearing `prevSep`; either way it bumps the iteration counter. -/
theorem scanStep_next_shape {syn : SynRule} {render : List Char} {n : Nat}
    {s s' : ScanState} (hstep : scanStep syn render n s = StepRes.next s') :
    (s.i < s'.i ∨ (s'.i = s.i ∧ s.prevSep = true ∧ s'.prevSep = false ∧
       ∃ kw klen kw2, klen = 0 ∧ kw ≠ [] ∧
         kwTry render s.i syn.keywords = some (kw, klen, kw2)))
    ∧ s'.steps = s.steps + 1 := by
  unfold scanStep at hstep
  dsimp only at hstep
  split_ifs at hstep <;>
    first
      | exact StepRes.noConfusion hstep
      | (injection hstep with hs; subst hs; exact ⟨Or.inl (by dsimp only; omega), rfl⟩)
      | skip
  all_goals
    rcases hmatch : kwTry render s.i syn.keywords with _ | ⟨kw, klen, kw2⟩ <;>
      simp only [hmatch] at hstep
  all_goals
    try (injection hstep with hs; subst hs; exact ⟨Or.inl (by dsimp only; omega), rfl⟩)
  all_goals
    (have hps : s.prevSep = true := ‹s.prevSep = true›
     split_ifs at hstep <;> injection hstep with hs <;> subst hs <;>
       refine ⟨?_, rfl⟩ <;> dsimp only <;>
       first
         | (left; omega)
         | exact (Nat.eq_zero_or_pos klen).elim
             (fun h0 => Or.inr ⟨by omega, hps, rfl, kw, klen, kw2, h0, ‹kw ≠ []›, rfl⟩)
             (fun h0 => Or.inl (by omega)))

set_option maxHeartbeats 1600000 in
/-- The single `break` path (a line-comment match) also counts one
iteration. -/
theorem scanStep_done_steps {syn : SynRule} {render : List Char} {n : Nat}
    {s s' : ScanState} (hstep : scanStep syn render n s = StepRes.done s') :
    s'.steps = s.steps + 1 := by
  unfold scanStep at hstep
  dsimp only at hstep
  split_ifs at hstep <;>
    first
      | exact StepRes.noConfusion hstep
      | (injection hstep with hs; subst hs; rfl)
      | skip
  all_goals
    rcases hmatch : kwTry render s.i syn.keywords with _ | ⟨kw, klen, kw2⟩ <;>
      simp only [hmatch] at hstep
  all_goals
    try (injection hstep with hs; subst hs; rfl)
  all_goals
    try exact StepRes.noConfusion hstep
  all_goals
    (split_ifs at hstep <;> exact StepRes.noConfusion hstep)

/-- The loop-termination measure of the scan: `2*(rsize - i) + prevSep`. -/
def scanMeasure (n : Nat) (s : ScanState) : Nat :=
  2 * (n - s.i) + (if s.prevSep then 1 else 0)

/-- Every `continue` strictly decreases the measure, so the source's
fuel-free `while` loop terminates. -/
theorem scanStep_measure_lt {syn : SynRule} {render : List Char} {n : Nat}
    {s s' : ScanState} (h : s.i < n)
    (hstep : scanStep syn render n s = StepRes.next s') :
    scanMeasure n s' < scanMeasure n s := by
  unfold scanMeasure
  rcases (scanStep_next_shape hstep).1 with hadv | ⟨he, hp, hp'⟩ <;>
    cases hps' : s'.prevSep <;> cases hps : s.prevSep <;> simp_all <;> omega

/-- The `while (i < row.rsize)` loop of `_updateSyntax`.  The source
loop carries no fuel; `fuel` makes the recursion structural, and by
`scanLoop_fuel_congr` any fuel above the (strictly decreasing)
`scanMeasure` yields the same result, so the wrapper's choice of
`2*n + 2` is exactly the source loop. -/
def scanLoop (syn : SynRule) (render : List Char) (n : Nat) : Nat → ScanState → ScanState
  | 0, s => s
  | fuel + 1, s =>
      if s.i < n then
        match scanStep syn render n s with
        | .done s1 => s1
        | .next s1 => scanLoop syn render n fuel s1
      else s

/-- Fuel is irrelevant beyond the termination measure. -/
theorem scanLoop_fuel_congr {syn : SynRule} {render : List Char} {n : Nat} :
    ∀ {f1 f2 : Nat} {s : ScanState}, scanMeasure n s < f1 → scanMeasure n s < f2 →
      scanLoop syn render n f1 s = scanLoop syn render n f2 s := by
  intro f1
  induction f1 with
  | zero => intro f2 s h1 _; omega
  | succ f1 ih =>
      intro f2 s h1 h2
      match f2, h2 with
      | f2 + 1, h2 =>
        rw [scanLoop, scanLoop]
        split
        · rename_i hlt
          rcases hstep : scanStep syn render n s with s1 | s1
          · rfl
          · have hm := scanStep_measure_lt hlt hstep
            exact ih (by omega) (by omega)
        · rfl

/-- Initial scan state for a row: the highlight array resized to the
render size and memset to HL_NORMAL, position 0, `prevSep` starting true,
not inside a string, block-comment state seeded from the previous row. -/
def initScan (ic0 : Bool) (n : Nat) : ScanState :=
  { hl := Array.mkArray n HL_NORMAL, i := 0, prevSep := true, inString := none,
    inComment := ic0, oob := false, steps := 0 }

/-- The complete per-row scan of `_updateSyntax` (Editor.cc lines
530-671, syntax-present case): final highlight array, trailing
block-comment state and instrumentation.  The fuel `2*n + 2` exceeds
`scanMeasure n (initScan ic0 n) = 2*n + 1`, so by `scanLoop_fuel_congr`
it computes the source's fuel-free loop. -/
def scanRow (syn : SynRule) (render : List Char) (n : Nat) (ic0 : Bool) : ScanState :=
  scanLoop syn render n (2 * n + 2) (initScan ic0 n)

/-- What a successful keyword probe implies: the keyword is from the
table, and the marker-stripped length fits both the keyword and the rest
of the row. -/
theorem kwTry_some_spec {render : List Char} {i : Nat} :
    ∀ {kws : List (List Char)} {kw : List Char} {klen : Nat} {kw2 : Bool},
      kwTry render i kws = some (kw, klen, kw2) →
      kw ∈ kws ∧ klen ≤ kw.length ∧ klen ≤ render.length - i ∧
        klen = (if kw.getLast?.getD '\x00' = '|' then kw.length - 1 else kw.length) := by
  intro kws
  induction kws with
  | nil => intro kw klen kw2 h; exact absurd h (by simp [kwTry])
  | cons k rest ih =>
      intro kw klen kw2 h
      rw [kwTry] at h
      split_ifs at h with hMark hCond hCond
      all_goals first
        | (have hr := ih h
           exact ⟨List.mem_cons_of_mem _ hr.1, hr.2⟩)
        | (injection h with h1
           injection h1 with ha hb
           injection hb with hb1 hb2
           subst ha; subst hb1; subst hb2
           have hlen := congrArg List.length hCond.1
           simp only [List.length_take, List.length_drop] at hlen
           refine ⟨List.mem_cons_self _ _, by omega, by omega, ?_⟩
           simp [hMark])

/-- A keyword table is well-formed when every marker-stripped keyword is
non-empty (true of the C table; an ill-formed entry could stall the scan
for one iteration, see scanStep_next_shape). -/
def goodKeywords (kws : List (List Char)) : Bool :=
  kws.all (fun kw =>
    decide (1 ≤ if kw.getLast?.getD '\x00' = '|' then kw.length - 1 else kw.length))

/-- Under a well-formed keyword table every `continue` advances the scan
position by at least one byte. -/
theorem scanStep_next_advance {syn : SynRule} {render : List Char} {n : Nat}
    {s s' : ScanState} (hgood : goodKeywords syn.keywords = true)
    (hstep : scanStep syn render n s = StepRes.next s') : s.i < s'.i := by
  rcases (scanStep_next_shape hstep).1 with hadv | ⟨_, _, _, kw, klen, kw2, h0, hne, hmatch⟩
  · exact hadv
  · exfalso
    have hspec := kwTry_some_spec hmatch
    have hg := List.all_eq_true.mp hgood kw hspec.1
    rw [decide_eq_true_eq] at hg
    omega
/-- One buffer row (struct Editor::Row in Editor.h).  `idx` is a C `int`
that `_delRow` can drive negative in unusual states, hence `Int`. -/
structure Row where
  idx : Int
  size : Nat
  rsize : Nat
  chars : List Char
  render : List Char
  hl : Array Hl
  hl_open_comment : Bool
deriving DecidableEq, Repr

instance : Inhabited Row :=
  ⟨{ idx := 0, size := 0, rsize := 0, chars := [], render := [], hl := #[],
     hl_open_comment := false }⟩

/-- Editor state (the `Editor` object's fields used by the core; the
status-message fields, which only feed the message bar, are omitted). -/
structure EditorState where
  cx : Nat
  cy : Nat
  rx : Nat
  rowOffset : Nat
  colOffset : Nat
  screenRows : Nat
  screenCols : Nat
  dirty : Nat
  filename : List Char
  synRule : Option SynRule
  rows : List Row
  tabStop : Nat
deriving DecidableEq, Repr

/-- Constructor defaults (Editor::Editor). -/
def initialState : EditorState :=
  { cx := 0, cy := 0, rx := 0, rowOffset := 0, colOffset := 0,
    screenRows := 25, screenCols := 80, dirty := 0, filename := [],
    synRule := none, rows := [], tabStop := 4 }

/-- Tab expansion of `_update`: a tab becomes one space plus spaces until
the running column is a multiple of `tabStop` (the source would loop
forever at `tabStop = 0`; every reachable state has `tabStop = 4`). -/
def renderChars (ts : Nat) : List Char → Nat → List Char
  | [], _ => []
  | c :: rest, idx =>
      if c = '\t' then
        let pad := (ts - 1) - idx % ts + 1
        List.replicate pad ' ' ++ renderChars ts rest (idx + pad)
      else
        c :: renderChars ts rest (idx + 1)

/-- Column advance of one character at render column `rx`
(`rx += (_tabStop - 1) - (rx % _tabStop); rx++` for a tab). -/
def tabAdv (ts rx : Nat) (c : Char) : Nat :=
  if c = '\t' then (ts - 1) - rx % ts + 1 else 1

/-- Loop of `_rowCxToRx`: accumulate render columns over the first `cx`
characters (the source indexes `chars.at(j)`, in range whenever
`cx ≤ size`; running off the list end just returns the accumulator). -/
def cxGo (ts : Nat) : List Char → Nat → Nat → Nat
  | _, 0, rx => rx
  | [], _ + 1, rx => rx
  | c :: rest, j + 1, rx => cxGo ts rest j (rx + tabAdv ts rx c)

/-- `_rowCxToRx` on a row's characters. -/
def rowCxToRx (ts : Nat) (chars : List Char) (cx : Nat) : Nat := cxGo ts chars cx 0

/-- Loop of `_rowRxToCx`: forward walk, returning the first character
column whose cumulative render column exceeds the target `rx`, or the
row size if none does. -/
def rxGo (ts rx : Nat) : List Char → Nat → Nat → Nat
  | [], cx, _ => cx
  | c :: rest, cx, cur =>
      let cur1 := cur + tabAdv ts cur c
      if rx < cur1 then cx else rxGo ts rx rest (cx + 1) cur1

/-- `_rowRxToCx` on a row's characters. -/
def rowRxToCx (ts : Nat) (chars : List Char) (rx : Nat) : Nat := rxGo ts rx chars 0 0

/-- `_updateSyntax` at the buffer level: recompute the highlight of the
row at position `pos` and, when its trailing block-comment state
changed, recurse to the row at position `row.idx + 1` (`_rows.at` is
positional; the source compares `row.idx + 1 < _rows.size()` with the
usual signed-to-unsigned conversion, so a negative `idx + 1` also stops
it).  The source recursion carries no fuel; callers pass the row count,
which bounds it whenever row indices match row positions (proved in the
cascade theorem).  The second component is ghost instrumentation
recording the positions recomputed, in order. -/
def updateSyntaxGo (osyn : Option SynRule) : Nat → List Row → Nat → List Row × List Nat
  | fuel, rows, pos =>
    match rows.get? pos with
    | none => (rows, [])
    | some row =>
      match osyn with
      | none => (rows.set pos { row with hl := Array.mkArray row.rsize HL_NORMAL }, [pos])
      | some syn =>
          let ic0 := decide (0 < row.idx) &&
            (rows.getD (row.idx - 1).toNat default).hl_open_comment
          let fin := scanRow syn row.render row.rsize ic0
          let rows1 := rows.set pos { row with hl := fin.hl, hl_open_comment := fin.inComment }
          if row.hl_open_comment ≠ fin.inComment ∧ 0 ≤ row.idx + 1 ∧
              row.idx + 1 < (rows.length : Int) then
            match fuel with
            | 0 => (rows1, [pos])
            | fuel1 + 1 =>
                let rest := updateSyntaxGo osyn fuel1 rows1 (row.idx + 1).toNat
                (rest.1, pos :: rest.2)
          else (rows1, [pos])

/-- `_update(rowIndex)`: re-derive `render`/`rsize` of the row at that
position from its characters, then run `_updateSyntax` on it. -/
def updateRow (st : EditorState) (rowIndex : Int) : EditorState :=
  match (if 0 ≤ rowIndex then st.rows.get? rowIndex.toNat else none) with
  | none => st
  | some row =>
      let render := renderChars st.tabStop (row.chars.take row.size) 0
      let rows1 := st.rows.set rowIndex.toNat
        { row with render := render, rsize := render.length }
      { st with rows := (updateSyntaxGo st.synRule rows1.length rows1 rowIndex.toNat).1 }

/-- `_insertRow(s, at)`: silently ignores an out-of-range position;
otherwise inserts a fresh Row (note: the source does not renumber the
`idx` fields of the rows it shifts). -/
def insertRow (st : EditorState) (s : List Char) (at_ : Nat) : EditorState :=
  if at_ ≤ st.rows.length then
    let row : Row := { idx := (at_ : Int), size := s.length, rsize := 0, chars := s,
                       render := [], hl := #[], hl_open_comment := false }
    let st1 := updateRow { st with rows := st.rows.insertIdx at_ row } (at_ : Int)
    { st1 with dirty := st1.dirty + 1 }
  else st

/-- Decrement the `idx` of every row at position ≥ `from_`
(the loop `for (j = at; j < numRows - 1; j++) _rows.at(j).idx--`). -/
def decIdxFrom : List Row → Nat → List Row
  | [], _ => []
  | r :: rs, 0 => { r with idx := r.idx - 1 } :: decIdxFrom rs 0
  | r :: rs, n + 1 => r :: decIdxFrom rs n

/-- `_delRow(at)`: no-op when out of range; otherwise erase the row and
decrement the `idx` of every subsequent row. -/
def delRow (st : EditorState) (at_ : Nat) : EditorState :=
  if at_ < st.rows.length then
    { st with rows := decIdxFrom (st.rows.eraseIdx at_) at_, dirty := st.dirty + 1 }
  else st

/-- `std::string::resize(n)`: truncate, or pad with NUL bytes. -/
def strResize (s : List Char) (n : Nat) : List Char :=
  s.take n ++ List.replicate (n - s.length) '\x00'

/-- `_rowInsertChar(_rows.at(pos), at, c)`: clamp `at` to the row size,
insert the byte, bump `size`, re-derive via `_update(row.idx)` (note:
`row.idx`, not `pos`). -/
def rowInsertChar (st : EditorState) (pos : Nat) (at_ : Nat) (c : Char) : EditorState :=
  match st.rows.get? pos with
  | none => st
  | some row =>
      let at1 := if at_ > row.size then row.size else at_
      let row1 := { row with chars := row.chars.insertIdx at1 c, size := row.size + 1 }
      let st1 := updateRow { st with rows := st.rows.set pos row1 } row.idx
      { st1 with dirty := st1.dirty + 1 }

/-- `_rowAppendString(_rows.at(pos), s)`. -/
def rowAppendString (st : EditorState) (pos : Nat) (s : List Char) : EditorState :=
  match st.rows.get? pos with
  | none => st
  | some row =>
      let row1 := { row with chars := row.chars ++ s, size := row.size + s.length }
      let st1 := updateRow { st with rows := st.rows.set pos row1 } row.idx
      { st1 with dirty := st1.dirty + 1 }

/-- `_rowDelChar(_rows.at(pos), at)`: no-op when out of range. -/
def rowDelChar (st : EditorState) (pos : Nat) (at_ : Nat) : EditorState :=
  match st.rows.get? pos with
  | none => st
  | some row =>
      if at_ < row.size then
        let row1 := { row with chars := row.chars.eraseIdx at_, size := row.size - 1 }
        let st1 := updateRow { st with rows := st.rows.set pos row1 } row.idx
        { st1 with dirty := st1.dirty + 1 }
      else st

/-- `_insertChar(c)`: appends an empty row first when the cursor sits on
the virtual one-past-last row. -/
def insertChar (st : EditorState) (c : Char) : EditorState :=
  let st1 := if st.cy = st.rows.length then insertRow st [] st.rows.length else st
  let st2 := rowInsertChar st1 st1.cy st1.cx c
  { st2 with cx := st2.cx + 1 }

/-- The `std::string(const char*)` conversion applied to a pointer into
a row's bytes: it reads up to the first NUL byte. -/
def cString (s : List Char) : List Char :=
  s.takeWhile (fun c => !decide (c = '\x00'))

/-- `_insertNewLine()`: at column 0 insert an empty row before the
cursor row; otherwise insert the suffix as a new row below, truncate the
cursor row at the cursor column, and re-derive it.  The suffix is passed
as `row.chars.data() + _cx`, so the `std::string` conversion truncates
it at the first NUL byte (`cString`). -/
def insertNewLine (st : EditorState) : EditorState :=
  if st.cx = 0 then
    let st1 := insertRow st [] st.cy
    { st1 with cy := st1.cy + 1, cx := 0 }
  else
    match st.rows.get? st.cy with
    | none => st
    | some row =>
        let st1 := insertRow st (cString (row.chars.drop st.cx)) (st.cy + 1)
        let st2 :=
          match st1.rows.get? st.cy with
          | none => st1
          | some row2 =>
              let row3 := { row2 with size := st.cx, chars := strResize row2.chars st.cx }
              { st1 with rows := st1.rows.set st.cy row3 }
        let st3 := updateRow st2 (st.cy : Int)
        { st3 with cy := st3.cy + 1, cx := 0 }

/-- `_delChar()`: backspace; at column 0 merge with the previous row
(reading the previous row's size for the new cursor column before
appending to it). -/
def delChar (st : EditorState) : EditorState :=
  if st.cy = st.rows.length then st
  else if st.cx = 0 ∧ st.cy = 0 then st
  else
    match st.rows.get? st.cy with
    | none => st
    | some row =>
        if st.cx > 0 then
          let st1 := rowDelChar st st.cy (st.cx - 1)
          { st1 with cx := st.cx - 1 }
        else
          let newCx := (st.rows.getD (st.cy - 1) default).size
          let st1 := rowAppendString st (st.cy - 1) row.chars
          let st2 := delRow st1 st.cy
          { st2 with cx := newCx, cy := st.cy - 1 }

/-- `getline` splitting: each returned line keeps its trailing newline;
a final fragment without a newline is also returned; an empty tail after
the last newline yields nothing (EOF). -/
def splitNlGo : List Char → List Char → List (List Char)
  | [], [] => []
  | [], acc => [acc.reverse]
  | c :: rest, acc =>
      if c = '\n' then (acc.reverse ++ ['\n']) :: splitNlGo rest []
      else splitNlGo rest (c :: acc)

/-- The terminator-stripping loop of `Editor::open`: drop trailing
`'\n'`/`'\r'` bytes. -/
def stripTerm (l : List Char) : List Char :=
  (l.reverse.dropWhile (fun c => c = '\n' || c = '\r')).reverse

/-- `_selectSyntaxHighlight` match test for one Syntax entry. -/
def ruleMatches (filename ext : List Char) (r : SynRule) : Bool :=
  r.filematch.any (fun m =>
    let isExt := m.getD 0 ' ' = '.'
    (isExt && decide (0 < ext.length) && decide (ext = m)) ||
    (!isExt && decide (filename = m)))

/-- Position just after the last `'.'` of the filename (`rfind`). -/
def lastDotPos (filename : List Char) : Option Nat :=
  (List.range filename.length).foldl
    (fun acc i => if filename.getD i ' ' = '.' then some i else acc) none

/-- `_selectSyntaxHighlight`: choose the HLDB entry whose extension or
exact filename matches (at `open` time the buffer is still empty, so the
per-row re-highlighting loop has nothing to do). -/
def selectSyn (filename : List Char) : Option SynRule :=
  if filename.length = 0 then none
  else
    match lastDotPos filename with
    | none => none
    | some pos =>
        HLDB.foldl
          (fun acc r =>
            match acc with
            | some _ => acc
            | none => if ruleMatches filename (filename.drop pos) r then some r else none)
          none

/-- `Editor::open`: set the filename, select the syntax rule, then
append one stripped row per input line. -/
def openEd (filename content : List Char) : EditorState :=
  let st0 := { initialState with filename := filename, synRule := selectSyn filename }
  let st1 := (splitNlGo content []).foldl
    (fun s line => insertRow s (stripTerm line) s.rows.length) st0
  { st1 with dirty := 0 }

/-- The byte stream `_save` writes: each row's `chars`, consecutively,
with nothing in between. -/
def saveBytes (st : EditorState) : List Char :=
  (st.rows.map Row.chars).flatten

/-- `_scroll()`: recompute `rx`, then clamp both offsets toward the
cursor. -/
def scroll (st : EditorState) : EditorState :=
  let rx := if st.cy < st.rows.length then
      rowCxToRx st.tabStop (st.rows.getD st.cy default).chars st.cx
    else 0
  let ro1 := if st.cy < st.rowOffset then st.cy else st.rowOffset
  let ro2 := if st.cy ≥ ro1 + st.screenRows then st.cy - st.screenRows + 1 else ro1
  let co1 := if rx < st.colOffset then rx else st.colOffset
  let co2 := if rx ≥ co1 + st.screenCols then rx - st.screenCols + 1 else co1
  { st with rx := rx, rowOffset := ro2, colOffset := co2 }

def BACKSPACE : Nat := 127

def ARROW_LEFT : Nat := 1000

def ARROW_RIGHT : Nat := 1001

def ARROW_UP : Nat := 1002

def ARROW_DOWN : Nat := 1003

def DEL_KEY : Nat := 1004

/-- C `iscntrl` over the ASCII range. -/
def isCntrl (c : Nat) : Bool := c < 32 || c = 127

/-- `strstr` search loop: first offset at which `needle` occurs. -/
def strstrGo (needle : List Char) : List Char → Nat → Option Nat
  | hay, k =>
      if needle.isPrefixOf hay then some k
      else
        match hay with
        | [] => none
        | _ :: t => strstrGo needle t (k + 1)

/-- `strstr(hay, needle)` as an offset (`none` for no occurrence; an
empty needle matches at offset 0, as in C). -/
def strstr (hay needle : List Char) : Option Nat := strstrGo needle hay 0

/-- `_rowRxToCx(rowId, rx)` as called on the editor state: fetches
`_rows.at(rowId)` and walks its first `size` characters. -/
def rowRxToCxSt (st : EditorState) (rowId : Int) (rx : Nat) : Nat :=
  let row := st.rows.getD rowId.toNat default
  rxGo st.tabStop rx (row.chars.take row.size) 0 0

/-- The function-static variables of `_findAction`: `last_match = -1`,
`direction = 1`, an empty saved-highlight vector and a zero-initialised
saved line at process start. -/
structure FindStatic where
  last_match : Int
  direction : Int
  savedHl : Array Hl
  savedHlLine : Int
deriving DecidableEq, Repr

def initFindStatic : FindStatic :=
  { last_match := -1, direction := 1, savedHl := #[], savedHlLine := 0 }

/-- The `for (i = 0; i < numRows; i++)` wraparound search of
`_findAction`.  On a hit: record the match, move the cursor (the column
comes from `_rowRxToCx(row.idx, ...)` — by the row's `idx` field, not
its position), force the row into view, save the row's highlight and
overlay HL_MATCH over the matched span. -/
def findLoop (query : List Char) : Nat → EditorState → FindStatic → Int →
    EditorState × FindStatic
  | 0, st, fs, _ => (st, fs)
  | n + 1, st, fs, current =>
      let current1 := current + fs.direction
      let current2 := if current1 = -1 then (st.rows.length : Int) - 1
        else if current1 = (st.rows.length : Int) then 0 else current1
      match st.rows.get? current2.toNat with
      | none => (st, fs)
      | some row =>
          match strstr row.render query with
          | some mpos =>
              let fs1 := { fs with last_match := current2,
                                   savedHlLine := current2,
                                   savedHl := row.hl }
              let row1 := { row with hl := memsetA row.hl HL_MATCH mpos query.length }
              ({ st with cy := current2.toNat,
                         cx := rowRxToCxSt st row.idx mpos,
                         rowOffset := st.rows.length,
                         rows := st.rows.set current2.toNat row1 }, fs1)
          | none => findLoop query n st fs current2

/-- `_findAction(query, key)`: restore any saved row highlight, handle
return/escape and the direction keys, then search. -/
def findAction (st : EditorState) (fs : FindStatic) (query : List Char) (key : Nat) :
    EditorState × FindStatic :=
  let restored :=
    if 0 < fs.savedHl.size then
      (match st.rows.get? fs.savedHlLine.toNat with
       | some r =>
           { st with rows := st.rows.set fs.savedHlLine.toNat ({ r with hl := fs.savedHl }) }
       | none => st,
       { fs with savedHl := #[] })
    else (st, fs)
  let st1 := restored.1
  let fs1 := restored.2
  if key = 13 ∨ key = 27 then
    (st1, { fs1 with last_match := -1, direction := 1 })
  else
    let fs2 :=
      if key = ARROW_RIGHT ∨ key = ARROW_DOWN then { fs1 with direction := 1 }
      else if key = ARROW_LEFT ∨ key = ARROW_UP then { fs1 with direction := -1 }
      else { fs1 with last_match := -1, direction := 1 }
    let fs3 := if fs2.last_match = -1 then { fs2 with direction := 1 } else fs2
    findLoop query st1.rows.length st1 fs3 fs3.last_match

/-- `_prompt` driven by a finite key script, with `_findAction` as its
callback (the buffer edit happens before the callback call).  On escape,
and on return with a non-empty buffer, the source returns WITHOUT
invoking the callback.  An exhausted script just returns (the scripts
used here always end in escape or return). -/
def promptFind : List Nat → List Char → EditorState → FindStatic →
    List Char × EditorState × FindStatic
  | [], buf, st, fs => (buf, st, fs)
  | key :: rest, buf, st, fs =>
      if key = DEL_KEY ∨ key = 8 ∨ key = BACKSPACE then
        let buf1 := buf.dropLast
        let next := findAction st fs buf1 key
        promptFind rest buf1 next.1 next.2
      else if key = 27 then
        ([], st, fs)
      else if key = 13 then
        if buf ≠ [] then (buf, st, fs)
        else
          let next := findAction st fs buf key
          promptFind rest buf next.1 next.2
      else if ¬ isCntrl key ∧ key < 128 then
        let buf1 := buf ++ [Char.ofNat key]
        let next := findAction st fs buf1 key
        promptFind rest buf1 next.1 next.2
      else
        let next := findAction st fs buf key
        promptFind rest buf next.1 next.2

/-- `_find()`: save cursor and scroll offsets, run the search prompt,
and restore them when the query comes back empty (escape). -/
def find (st : EditorState) (keys : List Nat) (fs : FindStatic) :
    EditorState × FindStatic :=
  let savedCx := st.cx
  let savedCy := st.cy
  let savedColOffset := st.colOffset
  let savedRowOffset := st.rowOffset
  let res := promptFind keys [] st fs
  if res.1.length = 0 then
    ({ res.2.1 with cx := savedCx, cy := savedCy, colOffset := savedColOffset,
                    rowOffset := savedRowOffset }, res.2.2)
  else res.2

/-- C1: counter-evidence.  Loading the file "a\nb\n" yields the rows
"a", "b" (terminators stripped), and saving with no intervening edits
writes "ab": `_save` emits each row's bytes consecutively and never
re-inserts a line terminator, so a multi-line buffer does not round-trip
even modulo terminator normalization and its rows are not written back
as separate lines. -/
theorem c1_load_save_not_roundtrip :
    ((openEd "t.txt".toList "a\nb\n".toList).rows.map Row.chars = [['a'], ['b']])
    ∧ saveBytes (openEd "t.txt".toList "a\nb\n".toList) = "ab".toList
    ∧ saveBytes (openEd "t.txt".toList "a\nb\n".toList) ≠ "a\nb".toList
    ∧ saveBytes (openEd "t.txt".toList "a\nb\n".toList) ≠ "a\nb\n".toList := by
  exact ⟨by decide, by decide, by decide, by decide⟩

/-- C2: counter-evidence.  On the freshly loaded two-row buffer the
indices are contiguous ([0, 1]), but `_insertRow("x", 0)` leaves them at
[0, 0, 1]: the source never increments the `idx` of the rows it shifts
(contrast `_delRow`, which does decrement them), so the row that moved
to position 1 still carries `idx = 0`. -/
theorem c2_insertRow_leaves_stale_indices :
    ((openEd "t.txt".toList "a\nb".toList).rows.map Row.idx = [0, 1])
    ∧ ((insertRow (openEd "t.txt".toList "a\nb".toList) "x".toList 0).rows.map Row.idx
        = [0, 0, 1])
    ∧ ((insertRow (openEd "t.txt".toList "a\nb".toList) "x".toList 0).rows.getD 1
        default).idx ≠ 1 := by
  exact ⟨by decide, by decide, by decide⟩

/-- C5: counter-evidence.  Split the loaded buffer "a\nb" at row 0,
column 0 (Enter), then type 'x' into the row now at position 1: the
row's characters become "xa" but its `render` stays "a", because
`_rowInsertChar` re-derives via `_update(row.idx)` and that row's `idx`
is stale (0) after the uncompensated insert, so the wrong row is
re-rendered and the mutated row's render is stale. -/
theorem c5_stale_render_after_mid_insert :
    ((insertChar (insertNewLine (openEd "t.txt".toList "a\nb".toList)) 'x').rows.getD 1
        default).chars = "xa".toList
    ∧ ((insertChar (insertNewLine (openEd "t.txt".toList "a\nb".toList)) 'x').rows.getD 1
        default).render = "a".toList
    ∧ renderChars 4 ("xa".toList.take 2) 0 = "xa".toList
    ∧ ((insertChar (insertNewLine (openEd "t.txt".toList "a\nb".toList)) 'x').rows.getD 1
        default).render
      ≠ renderChars 4 ("xa".toList.take 2) 0 := by
  exact ⟨by decide, by decide, by decide, by decide⟩

/-- C10: in the keyword-matching branch, when no keyword matches, the
post-loop test reads `keywords[j]` with `j` equal to the keyword count;
the total embedding's `List.get?` yields `none` there, and the
instrumented scan shows the branch is reached for the ordinary row
"a foo" under the active C syntax. -/
theorem c10_keyword_scan_out_of_bounds :
    C_HL_keywords.get? C_HL_keywords.length = none
    ∧ (scanRow cRule "a foo".toList 5 false).oob = true := by
  exact ⟨by decide, by decide⟩

set_option maxHeartbeats 3200000 in
/-- C4: counter-evidence.  In the three-row buffer where only row 1
contains the query "com", typing the query and pressing escape restores
the cursor and scroll offsets but NOT row 1's highlight: `_prompt`
returns on escape without invoking the `_findAction` callback (the
callback is what restores the saved highlight), so three SEARCH_MATCH
bytes remain overlaid on row 1. -/
theorem c4_escape_leaves_search_overlay :
    (((find (openEd "t.txt".toList "x\na com b\nz".toList)
          ("com".toList.map Char.toNat ++ [27]) initFindStatic).1.rows.getD 1
        default).hl.toList.count HL_MATCH = 3)
    ∧ (find (openEd "t.txt".toList "x\na com b\nz".toList)
          ("com".toList.map Char.toNat ++ [27]) initFindStatic).1.cx = 0
    ∧ (find (openEd "t.txt".toList "x\na com b\nz".toList)
          ("com".toList.map Char.toNat ++ [27]) initFindStatic).1.cy = 0
    ∧ (find (openEd "t.txt".toList "x\na com b\nz".toList)
          ("com".toList.map Char.toNat ++ [27]) initFindStatic).1.rowOffset = 0
    ∧ (((find (openEd "t.txt".toList "x\na com b\nz".toList)
          ("com".toList.map Char.toNat ++ [27]) initFindStatic).1.rows.getD 1
        default).hl ≠ Array.mkArray 7 HL_NORMAL)
    ∧ (((openEd "t.txt".toList "x\na com b\nz".toList).rows.getD 1
        default).hl = Array.mkArray 7 HL_NORMAL) := by
  exact ⟨by decide, by decide, by decide, by decide, by decide, by decide⟩

theorem tabAdv_pos (ts rx : Nat) (c : Char) : 0 < tabAdv ts rx c := by
  unfold tabAdv; split_ifs <;> omega

theorem le_cxGo (ts : Nat) :
    ∀ (chars : List Char) (n rx : Nat), rx ≤ cxGo ts chars n rx := by
  intro chars
  induction chars with
  | nil => intro n rx; cases n <;> simp [cxGo]
  | cons c rest ih =>
      intro n rx
      cases n with
      | zero => simp [cxGo]
      | succ m =>
          show rx ≤ cxGo ts rest m (rx + tabAdv ts rx c)
          exact le_trans (Nat.le_add_right _ _) (ih m _)

/-- Walking `n` characters forward and then mapping the resulting render
column back recovers `n` (generalized over the accumulators). -/
theorem rxGo_cxGo (ts : Nat) :
    ∀ (chars : List Char) (n cx0 cur : Nat), n ≤ chars.length →
      rxGo ts (cxGo ts chars n cur) chars cx0 cur = cx0 + n := by
  intro chars
  induction chars with
  | nil =>
      intro n cx0 cur hn
      have h0 : n = 0 := Nat.le_zero.mp (by simpa using hn)
      subst h0
      simp [cxGo, rxGo]
  | cons c rest ih =>
      intro n cx0 cur hn
      cases n with
      | zero =>
          show rxGo ts (cxGo ts (c :: rest) 0 cur) (c :: rest) cx0 cur = cx0 + 0
          rw [show cxGo ts (c :: rest) 0 cur = cur from rfl]
          rw [rxGo]
          try dsimp only
          rw [if_pos (by have := tabAdv_pos ts cur c; omega)]
          omega
      | succ m =>
          show rxGo ts (cxGo ts rest m (cur + tabAdv ts cur c)) (c :: rest) cx0 cur
              = cx0 + (m + 1)
          rw [rxGo]
          try dsimp only
          rw [if_neg (by have := le_cxGo ts rest m (cur + tabAdv ts cur c); omega)]
          rw [ih m (cx0 + 1) (cur + tabAdv ts cur c) (by simpa using hn)]
          omega

/-- C6: tab-mapping inverse.  For every row (its characters) and every
character column `c` up to the row length,
`_rowRxToCx(row, _rowCxToRx(row, c)) = c`, for any tab stop. -/
theorem c6_tab_mapping_inverse (ts : Nat) (chars : List Char) (c : Nat)
    (h : c ≤ chars.length) :
    rowRxToCx ts chars (rowCxToRx ts chars c) = c := by
  unfold rowRxToCx rowCxToRx
  simpa using rxGo_cxGo ts chars c 0 0 h

/-- Witness for C6 at the editor's tab stop 4 on a row with a tab. -/
theorem c6_tab_mapping_inverse_witness :
    rowRxToCx 4 "a\tbc".toList (rowCxToRx 4 "a\tbc".toList 3) = 3 :=
  c6_tab_mapping_inverse 4 "a\tbc".toList 3 (by decide)

/-- C9: after `_scroll` the cursor row lies in the vertical window and
the cursor render column lies in the horizontal window (for positive
screen dimensions), and when the cursor is already inside both windows
the offsets are left unchanged. -/
theorem c9_scroll_minimal_motion (st : EditorState) (hr : 0 < st.screenRows)
    (hc : 0 < st.screenCols) :
    ((scroll st).rowOffset ≤ st.cy
      ∧ st.cy < (scroll st).rowOffset + st.screenRows
      ∧ (scroll st).colOffset ≤ (scroll st).rx
      ∧ (scroll st).rx < (scroll st).colOffset + st.screenCols)
    ∧ (st.rowOffset ≤ st.cy → st.cy < st.rowOffset + st.screenRows →
       st.colOffset ≤ (scroll st).rx → (scroll st).rx < st.colOffset + st.screenCols →
       (scroll st).rowOffset = st.rowOffset ∧ (scroll st).colOffset = st.colOffset) := by
  unfold scroll
  dsimp only
  generalize (if st.cy < st.rows.length then
      rowCxToRx st.tabStop (st.rows.getD st.cy default).chars st.cx
    else 0) = v
  split_ifs <;> refine ⟨by omega, fun h1 h2 h3 h4 => by omega⟩

/-- Witness for C9: a state scrolled entirely off-screen (cursor at row
30 of a 25-row screen) ends with the cursor inside the window. -/
theorem c9_scroll_minimal_motion_witness :
    ((scroll { initialState with cy := 30 }).rowOffset ≤ 30
      ∧ 30 < (scroll { initialState with cy := 30 }).rowOffset + 25
      ∧ (scroll { initialState with cy := 30 }).colOffset
          ≤ (scroll { initialState with cy := 30 }).rx
      ∧ (scroll { initialState with cy := 30 }).rx
          < (scroll { initialState with cy := 30 }).colOffset + 80) :=
  (c9_scroll_minimal_motion { initialState with cy := 30 } (by decide) (by decide)).1

set_option maxHeartbeats 1600000 in
/-- No `continue` path moves the scan position beyond both the loop
bound and the row length: single-byte advances stay within the bound,
and multi-byte advances (delimiters, keywords) are licensed by an exact
substring match, hence stay within the row. -/
theorem scanStep_next_le {syn : SynRule} {render : List Char} {n : Nat}
    {s s' : ScanState} (h : s.i < n)
    (hstep : scanStep syn render n s = StepRes.next s') :
    s'.i ≤ max n render.length := by
  unfold scanStep at hstep
  dsimp only at hstep
  split_ifs at hstep <;>
    first
      | exact StepRes.noConfusion hstep
      | (injection hstep with hs; subst hs; dsimp only; omega)
      | skip
  all_goals try
    (have hTake : syn.multilineCommentEnd.length ≤ (render.drop s.i).length := by
       rw [← ‹List.take syn.multilineCommentEnd.length (render.drop s.i)
             = syn.multilineCommentEnd›]
       simp [List.length_take]
     simp only [List.length_drop] at hTake
     injection hstep with hs; subst hs; dsimp only; omega)
  all_goals try
    (obtain ⟨-, -, -, -, hTk⟩ :=
       ‹syn.multiLineCommentStart.length ≠ 0 ∧ syn.multilineCommentEnd.length ≠ 0 ∧
         s.inString = none ∧ s.inComment = false ∧
         List.take syn.multiLineCommentStart.length (render.drop s.i)
           = syn.multiLineCommentStart›
     have hTake : syn.multiLineCommentStart.length ≤ (render.drop s.i).length := by
       rw [← hTk]; simp [List.length_take]
     simp only [List.length_drop] at hTake
     injection hstep with hs; subst hs; dsimp only; omega)
  all_goals
    rcases hmatch : kwTry render s.i syn.keywords with _ | ⟨kw, klen, kw2⟩ <;>
      simp only [hmatch] at hstep
  all_goals try (injection hstep with hs; subst hs; dsimp only; omega)
  all_goals
    (obtain ⟨-, hk1, hk2, -⟩ := kwTry_some_spec hmatch
     split_ifs at hstep with hkw <;> injection hstep with hs <;> subst hs <;>
       dsimp only <;>
       first
         | omega
         | (have hnil : kw = [] := by by_contra hc; exact hkw hc
            subst hnil
            simp only [List.length_nil, Nat.le_zero] at hk1
            omega))

/-- Under a well-formed keyword table, fuel beyond `rsize - i` is
irrelevant: the loop finishes before consuming it. -/
theorem scanLoop_fuel_stable {syn : SynRule} {render : List Char} {n : Nat}
    (hgood : goodKeywords syn.keywords = true) :
    ∀ {f1 f2 : Nat} {s : ScanState}, n - s.i < f1 → n - s.i < f2 →
      scanLoop syn render n f1 s = scanLoop syn render n f2 s := by
  intro f1
  induction f1 with
  | zero => intro f2 s h1 _; omega
  | succ f1 ih =>
      intro f2 s h1 h2
      match f2, h2 with
      | f2 + 1, h2 =>
        rw [scanLoop, scanLoop]
        split
        · rename_i hlt
          rcases hstep : scanStep syn render n s with s1 | s1
          · rfl
          · have hadv := scanStep_next_advance hgood hstep
            exact ih (by omega) (by omega)
        · rfl

/-- Under a well-formed keyword table the scan executes at most
`rsize - i` iterations: each one advances `i` by at least one byte. -/
theorem scanLoop_steps_le {syn : SynRule} {render : List Char} {n : Nat}
    (hgood : goodKeywords syn.keywords = true) :
    ∀ {fuel : Nat} {s : ScanState}, n - s.i < fuel →
      (scanLoop syn render n fuel s).steps ≤ s.steps + (n - s.i) := by
  intro fuel
  induction fuel with
  | zero => intro s h; omega
  | succ fuel ih =>
      intro s h
      rw [scanLoop]
      split
      · rename_i hlt
        rcases hstep : scanStep syn render n s with s1 | s1 <;> dsimp only
        · have hd := scanStep_done_steps hstep
          omega
        · have hadv := scanStep_next_advance hgood hstep
          have hsteps := (scanStep_next_shape hstep).2
          have hrec := ih (s := s1) (by omega)
          omega
      · omega

/-- C3: for every row and the active C syntax rule, a single highlighter
scan is linear in the row length: every `continue` advances the scan
position by at least one byte and never leaves the row's byte range, any
fuel beyond the row length computes the same (fuel-free) loop, and the
number of executed iterations is at most the row length. -/
theorem c3_scan_terminates_linearly (render : List Char) (ic : Bool) :
    (∀ s s' : ScanState, s.i < render.length →
        scanStep cRule render render.length s = StepRes.next s' →
        s.i < s'.i ∧ s'.i ≤ render.length)
    ∧ (∀ fuel : Nat, render.length < fuel →
        scanLoop cRule render render.length fuel (initScan ic render.length)
          = scanRow cRule render render.length ic)
    ∧ (scanRow cRule render render.length ic).steps ≤ render.length := by
  have hgood : goodKeywords cRule.keywords = true := by decide
  refine ⟨?_, ?_, ?_⟩
  · intro s s' hlt hstep
    refine ⟨scanStep_next_advance hgood hstep, ?_⟩
    have hle := scanStep_next_le hlt hstep
    omega
  · intro fuel hfuel
    unfold scanRow
    exact scanLoop_fuel_stable hgood (by simp [initScan]; omega) (by simp [initScan]; omega)
  · have hsteps := @scanLoop_steps_le cRule render render.length hgood
      (2 * render.length + 2) (initScan ic render.length)
      (by simp [initScan]; omega)
    simpa [scanRow, initScan] using hsteps

/-- Witness for C3 on the concrete row "x*": one advancing step from the
start state, and a two-iteration scan. -/
theorem c3_scan_terminates_linearly_witness :
    (scanRow cRule "x*".toList 2 false).steps ≤ 2
    ∧ scanLoop cRule "x*".toList 2 3 (initScan false 2) = scanRow cRule "x*".toList 2 false := by
  refine ⟨(c3_scan_terminates_linearly "x*".toList false).2.2, ?_⟩
  exact (c3_scan_terminates_linearly "x*".toList false).2.1 3 (by decide)

/-- The split/merge inverse only concerns each row's characters (and the
`size` field that mirrors their length); this projection is what the
mutation operations must preserve or restore. -/
def charsSize (r : Row) : List Char × Nat := (r.chars, r.size)

theorem map_set_eq {α β : Type} (f : α → β) :
    ∀ (l : List α) (n : Nat) (a : α), (l.set n a).map f = (l.map f).set n (f a) := by
  intro l
  induction l with
  | nil => intro n a; rfl
  | cons b t ih =>
      intro n a
      cases n with
      | zero => rfl
      | succ m => simp only [List.set, List.map, ih]

theorem get?_map_eq {α β : Type} (f : α → β) :
    ∀ (l : List α) (n : Nat), (l.map f).get? n = (l.get? n).map f := by
  intro l
  induction l with
  | nil => intro n; cases n <;> rfl
  | cons b t ih => intro n; cases n with
      | zero => rfl
      | succ m => simpa using ih m

theorem set_get?_self {α : Type} :
    ∀ (l : List α) (n : Nat) (a : α), l.get? n = some a → l.set n a = l := by
  intro l
  induction l with
  | nil => intro n a h; cases n <;> exact Option.noConfusion h
  | cons b t ih =>
      intro n a h
      cases n with
      | zero => simp only [List.get?] at h; injection h with h; rw [List.set, h]
      | succ m => simp only [List.get?] at h; rw [List.set, ih m a h]

theorem map_insertIdx_eq {α β : Type} (f : α → β) :
    ∀ (l : List α) (n : Nat) (a : α),
      (l.insertIdx n a).map f = (l.map f).insertIdx n (f a) := by
  intro l
  induction l with
  | nil =>
      intro n a
      cases n with
      | zero => rfl
      | succ m => rfl
  | cons b t ih =>
      intro n a
      cases n with
      | zero => rfl
      | succ m =>
          rw [List.insertIdx_succ_cons, List.map_cons, List.map_cons,
            List.insertIdx_succ_cons, ih]

theorem get?_insertIdx_lt {α : Type} (a : α) :
    ∀ (l : List α) (n k : Nat), k < n → (l.insertIdx n a).get? k = l.get? k := by
  intro l
  induction l with
  | nil =>
      intro n k hk
      cases n with
      | zero => omega
      | succ m => rfl
  | cons b t ih =>
      intro n k hk
      cases n with
      | zero => omega
      | succ m =>
          rw [List.insertIdx_succ_cons]
          cases k with
          | zero => rfl
          | succ j => simpa using ih m j (by omega)

theorem get?_insertIdx_self {α : Type} (a : α) :
    ∀ (l : List α) (n : Nat), n ≤ l.length → (l.insertIdx n a).get? n = some a := by
  intro l
  induction l with
  | nil =>
      intro n hn
      have : n = 0 := by simpa using hn
      subst this; rfl
  | cons b t ih =>
      intro n hn
      cases n with
      | zero => rfl
      | succ m =>
          rw [List.insertIdx_succ_cons]
          simpa using ih m (by simpa using hn)

theorem eraseIdx_set_of_lt {α : Type} :
    ∀ (l : List α) (n j : Nat) (b : α), j < n →
      (l.set j b).eraseIdx n = (l.eraseIdx n).set j b := by
  intro l
  induction l with
  | nil => intro n j b _; rfl
  | cons c t ih =>
      intro n j b hj
      cases n with
      | zero => omega
      | succ m =>
          cases j with
          | zero => rfl
          | succ i =>
              simp only [List.set, List.eraseIdx]
              rw [ih m i b (by omega)]

theorem get?_set_of_ne {α : Type} :
    ∀ (l : List α) (m n : Nat) (a : α), m ≠ n → (l.set m a).get? n = l.get? n := by
  intro l
  induction l with
  | nil => intro m n a _; rfl
  | cons b t ih =>
      intro m n a hmn
      cases m with
      | zero => cases n with
          | zero => omega
          | succ j => rfl
      | succ i => cases n with
          | zero => rfl
          | succ j => simpa using ih i j a (by omega)

theorem get?_set_self {α : Type} :
    ∀ (l : List α) (m : Nat) (a : α), m < l.length → (l.set m a).get? m = some a := by
  intro l
  induction l with
  | nil => intro m a h; simp at h
  | cons b t ih =>
      intro m a h
      cases m with
      | zero => rfl
      | succ i => simpa using ih i a (by simpa using h)

theorem set_set_eq {α : Type} :
    ∀ (l : List α) (m : Nat) (a b : α), (l.set m a).set m b = l.set m b := by
  intro l
  induction l with
  | nil => intro m a b; rfl
  | cons c t ih =>
      intro m a b
      cases m with
      | zero => rfl
      | succ i => simp only [List.set]; rw [ih]

theorem map_eraseIdx_eq {α β : Type} (f : α → β) :
    ∀ (l : List α) (n : Nat), (l.eraseIdx n).map f = (l.map f).eraseIdx n := by
  intro l
  induction l with
  | nil => intro n; rfl
  | cons b t ih =>
      intro n
      cases n with
      | zero => rfl
      | succ m => simp only [List.eraseIdx, List.map_cons]; rw [ih]

theorem strResize_of_le {s : List Char} {n : Nat} (h : n ≤ s.length) :
    strResize s n = s.take n := by
  unfold strResize
  rw [Nat.sub_eq_zero_of_le h]
  simp

theorem map_charsSize_set {rows : List Row} {p : Nat} {row row' : Row}
    (hget : rows.get? p = some row) (hcs : charsSize row' = charsSize row) :
    (rows.set p row').map charsSize = rows.map charsSize := by
  rw [map_set_eq, hcs]
  exact set_get?_self _ _ _ (by rw [get?_map_eq, hget]; rfl)

/-- The highlight cascade never touches a row's characters or size. -/
theorem updateSyntaxGo_charsSize (osyn : Option SynRule) :
    ∀ (fuel : Nat) (rows : List Row) (pos : Nat),
      ((updateSyntaxGo osyn fuel rows pos).1).map charsSize = rows.map charsSize := by
  intro fuel
  induction fuel with
  | zero =>
      intro rows pos
      rw [updateSyntaxGo]
      rcases hget : rows.get? pos with _ | row
      · rfl
      · rcases osyn with _ | syn
        · exact map_charsSize_set hget rfl
        · dsimp only
          split_ifs with hc
          · exact map_charsSize_set hget rfl
          · exact map_charsSize_set hget rfl
  | succ fuel ih =>
      intro rows pos
      rw [updateSyntaxGo]
      rcases hget : rows.get? pos with _ | row
      · rfl
      · rcases osyn with _ | syn
        · exact map_charsSize_set hget rfl
        · dsimp only
          split_ifs with hc
          · rw [ih]
            exact map_charsSize_set hget rfl
          · exact map_charsSize_set hget rfl

/-- `_update` never touches a row's characters or size either. -/
theorem updateRow_rows_charsSize (st : EditorState) (i : Int) :
    (updateRow st i).rows.map charsSize = st.rows.map charsSize := by
  rw [updateRow]
  rcases hget : (if 0 ≤ i then st.rows.get? i.toNat else none) with _ | row
  · rfl
  · dsimp only
    rw [updateSyntaxGo_charsSize]
    have hget1 : st.rows.get? i.toNat = some row := by
      split_ifs at hget with hi
      exact hget
    exact map_charsSize_set hget1 rfl

theorem updateRow_fields (st : EditorState) (i : Int) :
    (updateRow st i).cx = st.cx ∧ (updateRow st i).cy = st.cy
    ∧ (updateRow st i).tabStop = st.tabStop
    ∧ (updateRow st i).synRule = st.synRule := by
  rw [updateRow]
  rcases hget : (if 0 ≤ i then st.rows.get? i.toNat else none) with _ | row <;>
    exact ⟨rfl, rfl, rfl, rfl⟩

theorem insertRow_spec (st : EditorState) (s : List Char) (at_ : Nat)
    (h : at_ ≤ st.rows.length) :
    (insertRow st s at_).rows.map charsSize
        = (st.rows.map charsSize).insertIdx at_ (s, s.length)
    ∧ (insertRow st s at_).cx = st.cx ∧ (insertRow st s at_).cy = st.cy := by
  rw [insertRow, if_pos h]
  dsimp only
  refine ⟨?_, (updateRow_fields _ _).1, (updateRow_fields _ _).2.1⟩
  rw [updateRow_rows_charsSize]
  dsimp only
  rw [map_insertIdx_eq]
  rfl

theorem rowAppendString_spec (st : EditorState) (pos : Nat) (s : List Char)
    {row : Row} (hget : st.rows.get? pos = some row) :
    (rowAppendString st pos s).rows.map charsSize
        = (st.rows.map charsSize).set pos (row.chars ++ s, row.size + s.length)
    ∧ (rowAppendString st pos s).cx = st.cx ∧ (rowAppendString st pos s).cy = st.cy := by
  rw [rowAppendString, hget]
  dsimp only
  refine ⟨?_, (updateRow_fields _ _).1, (updateRow_fields _ _).2.1⟩
  rw [updateRow_rows_charsSize]
  dsimp only
  rw [map_set_eq]
  rfl

theorem decIdxFrom_charsSize :
    ∀ (l : List Row) (n : Nat), (decIdxFrom l n).map charsSize = l.map charsSize := by
  intro l
  induction l with
  | nil => intro n; rfl
  | cons r t ih =>
      intro n
      cases n with
      | zero => simp only [decIdxFrom, List.map_cons]; rw [ih]; rfl
      | succ m => simp only [decIdxFrom, List.map_cons]; rw [ih]

theorem delRow_spec (st : EditorState) (at_ : Nat) (h : at_ < st.rows.length) :
    (delRow st at_).rows.map charsSize = (st.rows.map charsSize).eraseIdx at_
    ∧ (delRow st at_).cx = st.cx ∧ (delRow st at_).cy = st.cy := by
  rw [delRow, if_pos h]
  dsimp only
  exact ⟨by rw [decIdxFrom_charsSize, map_eraseIdx_eq], rfl, rfl⟩

theorem cString_of_no_nul : ∀ {l : List Char}, ¬ '\x00' ∈ l → cString l = l := by
  intro l
  induction l with
  | nil => intro _; rfl
  | cons c t ih =>
      intro h
      have hc : ¬ c = '\x00' := fun hc => h (by rw [hc]; exact List.mem_cons_self _ _)
      have ht := ih (fun hm => h (List.mem_cons_of_mem _ hm))
      simp only [cString] at ht ⊢
      simp [List.takeWhile_cons, hc, ht]

set_option maxHeartbeats 1600000 in
/-- Split/merge inverse, restricted to NUL-free suffixes: for a cursor
on a valid row whose `size` field matches its character count and whose
split-off suffix contains no NUL byte, `_insertNewLine` at column
`cx` (0 < cx ≤ row length) followed immediately by `_delChar` at the
start of the newly created line restores every row's characters.  (The
NUL restriction is forced by the C-string truncation in
`_insertNewLine`; without it the program corrupts the row, see the
claim theorem below.) -/
theorem splitMerge_restores_of_no_nul (st : EditorState)
    (hcy : st.cy < st.rows.length) (hcx : 0 < st.cx)
    (hle : st.cx ≤ (st.rows.getD st.cy default).chars.length)
    (hsync : (st.rows.getD st.cy default).size
        = (st.rows.getD st.cy default).chars.length)
    (hnul : ¬ '\x00' ∈ (st.rows.getD st.cy default).chars.drop st.cx) :
    (delChar (insertNewLine st)).rows.map Row.chars = st.rows.map Row.chars := by
  rcases hget : st.rows.get? st.cy with _ | row
  · exact absurd (List.get?_eq_none.mp hget) (by omega)
  have hgetD : st.rows.getD st.cy default = row := by
    show (st.rows.get? st.cy).getD default = row
    rw [hget]; rfl
  rw [hgetD] at hle hsync hnul
  have hMcy : (st.rows.map charsSize).get? st.cy = some (row.chars, row.size) := by
    rw [get?_map_eq, hget]; rfl
  have hMlen : (st.rows.map charsSize).length = st.rows.length := by
    simp [List.length_map]
  -- ===== the split =====
  have hsplit :
      (insertNewLine st).rows.map charsSize
          = ((st.rows.map charsSize).insertIdx (st.cy + 1)
              (row.chars.drop st.cx, (row.chars.drop st.cx).length)).set st.cy
              (row.chars.take st.cx, st.cx)
        ∧ (insertNewLine st).cy = st.cy + 1 ∧ (insertNewLine st).cx = 0 := by
    rw [insertNewLine, if_neg (by omega), hget]
    dsimp only
    rw [cString_of_no_nul hnul]
    obtain ⟨hA, hAcx, hAcy⟩ :=
      insertRow_spec st (row.chars.drop st.cx) (st.cy + 1) (by omega)
    have hg2m : ((insertRow st (row.chars.drop st.cx) (st.cy + 1)).rows.get?
        st.cy).map charsSize = some (row.chars, row.size) := by
      rw [← get?_map_eq, hA, get?_insertIdx_lt _ _ _ _ (by omega), hMcy]
    rcases Option.map_eq_some'.mp hg2m with ⟨row2, hg2, hcs2⟩
    rw [hg2]
    dsimp only
    have hchars2 : row2.chars = row.chars := congrArg Prod.fst hcs2
    refine ⟨?_, ?_, rfl⟩
    · rw [updateRow_rows_charsSize]
      dsimp only
      rw [map_set_eq, hA]
      have : charsSize { row2 with size := st.cx, chars := strResize row2.chars st.cx }
          = (row.chars.take st.cx, st.cx) := by
        unfold charsSize
        dsimp only
        rw [hchars2, strResize_of_le hle]
      rw [this]
    · have h1 := (updateRow_fields { (insertRow st (row.chars.drop st.cx) (st.cy + 1)) with
        rows := (insertRow st (row.chars.drop st.cx) (st.cy + 1)).rows.set st.cy
          ({ row2 with size := st.cx, chars := strResize row2.chars st.cx }) }
        (st.cy : Int)).2.1
      dsimp only at h1 ⊢
      rw [h1, hAcy]
  obtain ⟨hB1, hB2, hB3⟩ := hsplit
  have hlenB : (insertNewLine st).rows.length = st.rows.length + 1 := by
    have := congrArg List.length hB1
    rwa [List.length_map, List.length_set,
      List.length_insertIdx _ _ (by omega), hMlen] at this
  -- ===== the merge =====
  have hgBm : ((insertNewLine st).rows.get? (st.cy + 1)).map charsSize
      = some (row.chars.drop st.cx, (row.chars.drop st.cx).length) := by
    rw [← get?_map_eq, hB1, get?_set_of_ne _ _ _ _ (by omega),
      get?_insertIdx_self _ _ _ (by omega)]
  rcases Option.map_eq_some'.mp hgBm with ⟨rowB, hgB, hcsB⟩
  have hgCm : ((insertNewLine st).rows.get? st.cy).map charsSize
      = some (row.chars.take st.cx, st.cx) := by
    rw [← get?_map_eq, hB1, get?_set_self]
    rw [List.length_insertIdx _ _ (by omega)]
    omega
  rcases Option.map_eq_some'.mp hgCm with ⟨rowC, hgC, hcsC⟩
  obtain ⟨hD1, hDcx, hDcy⟩ := rowAppendString_spec (insertNewLine st) st.cy rowB.chars hgC
  have hlenD : (rowAppendString (insertNewLine st) st.cy rowB.chars).rows.length
      = st.rows.length + 1 := by
    have := congrArg List.length hD1
    rwa [List.length_map, List.length_set, List.length_map, hlenB] at this
  have hfinal : (delChar (insertNewLine st)).rows.map charsSize
      = st.rows.map charsSize := by
    rw [delChar, hB2, hB3, hlenB]
    rw [if_neg (by omega), if_neg (by omega), hgB]
    dsimp only
    rw [if_neg (by omega)]
    rw [Nat.add_sub_cancel]
    rw [(delRow_spec _ (st.cy + 1) (by rw [hlenD]; omega)).1, hD1, hB1]
    have hchB : rowB.chars = row.chars.drop st.cx := congrArg Prod.fst hcsB
    have hchC : rowC.chars = row.chars.take st.cx := congrArg Prod.fst hcsC
    have hszC : rowC.size = st.cx := congrArg Prod.snd hcsC
    rw [set_set_eq, hchB, hchC, hszC]
    have hjoin : (row.chars.take st.cx ++ row.chars.drop st.cx,
        st.cx + (row.chars.drop st.cx).length) = (row.chars, row.size) := by
      rw [List.take_append_drop, List.length_drop]
      have : st.cx + (row.chars.length - st.cx) = row.size := by omega
      rw [this]
    rw [hjoin]
    rw [eraseIdx_set_of_lt _ _ _ _ (by omega), List.eraseIdx_insertIdx]
    exact set_get?_self _ _ _ hMcy
  calc (delChar (insertNewLine st)).rows.map Row.chars
      = ((delChar (insertNewLine st)).rows.map charsSize).map Prod.fst := by
        rw [List.map_map]; rfl
    _ = (st.rows.map charsSize).map Prod.fst := by rw [hfinal]
    _ = st.rows.map Row.chars := by rw [List.map_map]; rfl


/-- C7: counter-evidence.  The single-row buffer "a\x00b" is loadable
(`getline` keeps interior NUL bytes and `open` constructs the row with
an explicit length).  Splitting it at column 1 hands `_insertRow` the
pointer `chars.data() + 1`, whose `std::string` conversion truncates at
the NUL, so the new row is empty instead of "\x00b"; backspacing at its
start merges back only "a" — the original row's characters are not
restored. -/
theorem c7_split_merge_loses_nul_suffix :
    (({ openEd "t.txt".toList "a\x00b".toList with cx := 1 }).rows.map Row.chars
        = [['a', '\x00', 'b']])
    ∧ ((delChar (insertNewLine
          ({ openEd "t.txt".toList "a\x00b".toList with cx := 1 }))).rows.map Row.chars
        = [['a']])
    ∧ (delChar (insertNewLine
          ({ openEd "t.txt".toList "a\x00b".toList with cx := 1 }))).rows.map Row.chars
        ≠ ({ openEd "t.txt".toList "a\x00b".toList with cx := 1 }).rows.map Row.chars := by
  exact ⟨by decide, by decide, by decide⟩

/-- The buffer invariant the spec states: every row's `idx` equals its
position. -/
def idxOk (rows : List Row) : Bool :=
  (List.range rows.length).all (fun i => decide ((rows.getD i default).idx = (i : Int)))

theorem idxOk_get {rows : List Row} (h : idxOk rows = true) {pos : Nat} {row : Row}
    (hget : rows.get? pos = some row) : row.idx = (pos : Int) := by
  have hlt : pos < rows.length := by
    by_contra hc
    rw [(List.get?_eq_none).mpr (by omega)] at hget
    exact Option.noConfusion hget
  have hall := List.all_eq_true.mp h pos (List.mem_range.mpr hlt)
  rw [decide_eq_true_eq] at hall
  have hgd : rows.getD pos default = row := by
    show (rows.get? pos).getD default = row
    rw [hget]; rfl
  rw [hgd] at hall
  exact hall

theorem idxOk_set {rows : List Row} {pos : Nat} {row row' : Row}
    (h : idxOk rows = true) (hget : rows.get? pos = some row)
    (hidx : row'.idx = row.idx) : idxOk (rows.set pos row') = true := by
  unfold idxOk
  rw [List.length_set]
  refine List.all_eq_true.mpr ?_
  intro i hi
  have hall := List.all_eq_true.mp h i hi
  rw [decide_eq_true_eq] at hall ⊢
  by_cases hip : i = pos
  · subst hip
    have hlt : i < rows.length := List.mem_range.mp hi
    show (((rows.set i row').get? i).getD default).idx = (i : Int)
    rw [get?_set_self _ _ _ hlt]
    show row'.idx = (i : Int)
    rw [hidx, idxOk_get h hget]
  · show (((rows.set pos row').get? i).getD default).idx = (i : Int)
    rw [get?_set_of_ne _ _ _ _ (by omega)]
    exact hall

/-- One row recompute of `_updateSyntax` without the cascade: row
`pos`'s highlight is re-derived and its trailing comment state stored. -/
def applyScanAt (syn : SynRule) (rows : List Row) (pos : Nat) : List Row :=
  match rows.get? pos with
  | none => rows
  | some row =>
      let ic0 := decide (0 < row.idx) &&
        (rows.getD (row.idx - 1).toNat default).hl_open_comment
      let fin := scanRow syn row.render row.rsize ic0
      rows.set pos { row with hl := fin.hl, hl_open_comment := fin.inComment }

/-- Whether the recompute at `pos` would change the stored trailing
block-comment state. -/
def openChangedAt (syn : SynRule) (rows : List Row) (pos : Nat) : Bool :=
  match rows.get? pos with
  | none => false
  | some row =>
      let ic0 := decide (0 < row.idx) &&
        (rows.getD (row.idx - 1).toNat default).hl_open_comment
      decide (row.hl_open_comment ≠ (scanRow syn row.render row.rsize ic0).inComment)

/-- Under the index invariant, one step of the cascade is exactly:
re-derive row `pos`; if its trailing comment state changed and a next
row exists, continue at `pos + 1`, else stop. -/
theorem cascade_step (syn : SynRule) (rows : List Row) (pos fuel : Nat)
    (hidx : idxOk rows = true) (hpos : pos < rows.length) :
    updateSyntaxGo (some syn) (fuel + 1) rows pos
      = if openChangedAt syn rows pos = true ∧ pos + 1 < rows.length then
          ((updateSyntaxGo (some syn) fuel (applyScanAt syn rows pos) (pos + 1)).1,
            pos :: (updateSyntaxGo (some syn) fuel (applyScanAt syn rows pos) (pos + 1)).2)
        else (applyScanAt syn rows pos, [pos]) := by
  rw [updateSyntaxGo]
  rcases hget : rows.get? pos with _ | row
  · exact absurd (List.get?_eq_none.mp hget) (by omega)
  have hidxrow : row.idx = (pos : Int) := idxOk_get hidx hget
  unfold applyScanAt openChangedAt
  rw [hget]
  dsimp only
  rw [hidxrow]
  have htn : ((pos : Int) + 1).toNat = pos + 1 := by omega
  split_ifs with h1 h2 h2
  · rw [htn]
  · exact absurd ⟨by rw [decide_eq_true_eq]; exact h1.1, by
      have := h1.2.2; omega⟩ h2
  · exact absurd ⟨by have := h2.1; rw [decide_eq_true_eq] at this; exact this,
      by constructor <;> omega⟩ h1
  · rfl

theorem idxOk_applyScanAt {syn : SynRule} {rows : List Row} {pos : Nat}
    (h : idxOk rows = true) : idxOk (applyScanAt syn rows pos) = true := by
  unfold applyScanAt
  rcases hget : rows.get? pos with _ | row
  · exact h
  · exact idxOk_set h hget rfl

theorem applyScanAt_length (syn : SynRule) (rows : List Row) (pos : Nat) :
    (applyScanAt syn rows pos).length = rows.length := by
  unfold applyScanAt
  rcases hget : rows.get? pos with _ | row
  · rfl
  · exact List.length_set _ _ _

/-- Under the index invariant the cascade's ghost trail from `pos` is
`pos, pos+1, pos+2, ...`: strictly forward, one row at a time, and never
longer than the remaining row count. -/
theorem cascade_visits (syn : SynRule) :
    ∀ (fuel : Nat) (rows : List Row) (pos : Nat), idxOk rows = true →
      pos < rows.length → rows.length ≤ fuel + pos + 1 →
      (∀ k, k < (updateSyntaxGo (some syn) fuel rows pos).2.length →
          (updateSyntaxGo (some syn) fuel rows pos).2.get? k = some (pos + k))
      ∧ (updateSyntaxGo (some syn) fuel rows pos).2.length ≤ rows.length - pos := by
  intro fuel
  induction fuel with
  | zero =>
      intro rows pos hidx hpos hfuel
      rw [updateSyntaxGo]
      rcases hget : rows.get? pos with _ | row
      · exact absurd (List.get?_eq_none.mp hget) (by omega)
      dsimp only
      split_ifs with h1 <;>
        exact ⟨fun k hk => by
            have hk0 : k = 0 := by
              simp only [List.length_cons, List.length_nil] at hk; omega
            subst hk0; simp,
          by simp only [List.length_cons, List.length_nil]; omega⟩
  | succ fuel ih =>
      intro rows pos hidx hpos hfuel
      rw [cascade_step syn rows pos fuel hidx hpos]
      split_ifs with h1
      · have hidx1 : idxOk (applyScanAt syn rows pos) = true := idxOk_applyScanAt hidx
        have hpos1 : pos + 1 < (applyScanAt syn rows pos).length := by
          rw [applyScanAt_length]; exact h1.2
        have hfuel1 : (applyScanAt syn rows pos).length ≤ fuel + (pos + 1) + 1 := by
          rw [applyScanAt_length]; omega
        obtain ⟨ihA, ihB⟩ := ih (applyScanAt syn rows pos) (pos + 1) hidx1 hpos1 hfuel1
        rw [applyScanAt_length] at ihB
        constructor
        · intro k hk
          cases k with
          | zero => simp
          | succ j =>
              simp only [List.length_cons] at hk
              have hj : j < (updateSyntaxGo (some syn) fuel (applyScanAt syn rows pos)
                  (pos + 1)).2.length := by omega
              show (updateSyntaxGo (some syn) fuel (applyScanAt syn rows pos)
                  (pos + 1)).2.get? j = some (pos + (j + 1))
              rw [ihA j hj]
              exact congrArg some (by omega)
        · simp only [List.length_cons]
          omega
      · exact ⟨fun k hk => by
            have hk0 : k = 0 := by
              simp only [List.length_cons, List.length_nil] at hk; omega
            subst hk0; simp,
          by simp only [List.length_cons, List.length_nil]; omega⟩

/-- C8: under the row-index invariant, when a row's scan changes its
stored trailing open-comment state the recomputation cascade re-derives
exactly the rows after it, one position at a time, and halts at the
first row whose own state does not change (the defining step equation),
so its ghost trail is `pos, pos+1, ...` and never exceeds the row
count. -/
theorem c8_cascade_forward_halts (syn : SynRule) (rows : List Row) (pos fuel : Nat)
    (hidx : idxOk rows = true) (hpos : pos < rows.length)
    (hfuel : rows.length ≤ fuel + pos + 1) :
    (updateSyntaxGo (some syn) (fuel + 1) rows pos
        = if openChangedAt syn rows pos = true ∧ pos + 1 < rows.length then
            ((updateSyntaxGo (some syn) fuel (applyScanAt syn rows pos) (pos + 1)).1,
              pos :: (updateSyntaxGo (some syn) fuel (applyScanAt syn rows pos)
                (pos + 1)).2)
          else (applyScanAt syn rows pos, [pos]))
    ∧ (∀ k, k < (updateSyntaxGo (some syn) fuel rows pos).2.length →
          (updateSyntaxGo (some syn) fuel rows pos).2.get? k = some (pos + k))
    ∧ (updateSyntaxGo (some syn) fuel rows pos).2.length ≤ rows.length - pos :=
  ⟨cascade_step syn rows pos fuel hidx hpos,
   (cascade_visits syn fuel rows pos hidx hpos hfuel).1,
   (cascade_visits syn fuel rows pos hidx hpos hfuel).2⟩

/-- Two-row buffer whose first row opens a block comment. -/
def c8Rows : List Row :=
  [{ idx := 0, size := 2, rsize := 2, chars := "/*".toList, render := "/*".toList,
     hl := #[HL_NORMAL, HL_NORMAL], hl_open_comment := false },
   { idx := 1, size := 1, rsize := 1, chars := "y".toList, render := "y".toList,
     hl := #[HL_NORMAL], hl_open_comment := false }]

/-- Witness for C8 on `c8Rows` with the C rule: the step equation at
fuel 1 and the trail-length bound. -/
theorem c8_cascade_forward_halts_witness :
    (updateSyntaxGo (some cRule) (1 + 1) c8Rows 0
        = if openChangedAt cRule c8Rows 0 = true ∧ 0 + 1 < c8Rows.length then
            ((updateSyntaxGo (some cRule) 1 (applyScanAt cRule c8Rows 0) (0 + 1)).1,
              0 :: (updateSyntaxGo (some cRule) 1 (applyScanAt cRule c8Rows 0)
                (0 + 1)).2)
          else (applyScanAt cRule c8Rows 0, [0]))
    ∧ (updateSyntaxGo (some cRule) 1 c8Rows 0).2.length ≤ c8Rows.length - 0 :=
  ⟨(c8_cascade_forward_halts cRule c8Rows 0 1 (by decide) (by decide) (by decide)).1,
   (c8_cascade_forward_halts cRule c8Rows 0 1 (by decide) (by decide) (by decide)).2.2⟩
